import Mathlib

/-!
# The serial-console line editor (`src/editline.cpp`)

A shallow embedding of `line_edit` and of the one HAL primitive it calls,
`serial_putc` (`src/hal.cpp`).

Modelling choices.

* A `char` is represented by its byte value, a `Nat`.  The `switch` compares
  `c` with the labels `0x0D`, `0x0A`, `0x08` and `127` only, all of which lie in
  `0..127`, so the signedness of `char` never changes which branch is taken.
* An `int` (`index`, `size`) is an `Int`.  The function increments `index` only
  below `size - 1` and decrements it only above `0`, so the sole expression that
  can leave the range of a machine `int` is `size - 1` at the least `int`; no
  statement below depends on that corner.
* The caller's buffer is the memory seen through the pointer `buf`: a function
  from the offset `i` of `buf[i]` to the byte stored there.  A store
  `buf[i] = v` is `Function.update`.
  `line_edit_checked` is the same function over a buffer of exactly `size`
  bytes with both stores bounds-checked, and `store_offset` names the offset a
  call stores at.
* The serial line is the list of bytes written so far; `serial_putc` appends.
* The `static int index` is a field of the state threaded through the calls.
-/

namespace EditLine

/-- The macro `BELL` of `editline.cpp`. -/
def BELL : Nat := 0x07

/-- The macro `BS` of `editline.cpp`. -/
def BS : Nat := 0x08

/-- The macro `LF` of `editline.cpp`. -/
def LF : Nat := 0x0A

/-- The macro `CR` of `editline.cpp`. -/
def CR : Nat := 0x0D

/-- The literal `127` of the label `case 127:`, the delete key. -/
def DEL : Nat := 127

/-- The character literal `' '` written by the erase sequence. -/
def SPACE : Nat := 0x20

/-- Everything a call of `line_edit` reads or changes besides its arguments `c`
and `size`: the static cursor `index`, the memory behind `buf`, and the bytes
written to the serial line so far. -/
structure EditState where
  index : Int
  buf : Int → Nat
  out : List Nat

/-- The HAL routine `serial_putc` (`Serial.write(c)`): one more byte on the line. -/
def serial_putc (c : Nat) (out : List Nat) : List Nat :=
  out ++ [c]

/-- The function `line_edit(c, buf, size)`: the returned `bool` paired with the
state after the call.  The three arms are the three groups of `case` labels of
the `switch`, in source order. -/
def line_edit (c : Nat) (size : Int) (s : EditState) : Bool × EditState :=
  if c = CR ∨ c = LF then
    -- buf[index] = 0; serial_putc(c); index = 0; return true;
    (true,
      { index := 0
        buf := Function.update s.buf s.index 0
        out := serial_putc c s.out })
  else if c = BS ∨ c = DEL then
    if s.index > 0 then
      -- serial_putc(BS); serial_putc(' '); serial_putc(BS); index--;
      (false,
        { index := s.index - 1
          buf := s.buf
          out := serial_putc BS (serial_putc SPACE (serial_putc BS s.out)) })
    else
      -- serial_putc(BELL);
      (false, { index := s.index, buf := s.buf, out := serial_putc BELL s.out })
  else
    if s.index < size - 1 then
      -- buf[index++] = c; serial_putc(c);
      (false,
        { index := s.index + 1
          buf := Function.update s.buf s.index c
          out := serial_putc c s.out })
    else
      -- serial_putc(BELL);
      (false, { index := s.index, buf := s.buf, out := serial_putc BELL s.out })

/-- A caller's loop: the characters of `w` are passed to `line_edit` one after
the other, with the same buffer and the same `size` in every call.  The result
is the list of returned values, in call order, and the final state. -/
def feed (size : Int) : EditState → List Nat → List Bool × EditState
  | s, [] => ([], s)
  | s, c :: cs =>
    let r := line_edit c size s
    let rest := feed size r.2 cs
    (r.1 :: rest.1, rest.2)

/-- The first `n` bytes of the buffer, `buf[0] .. buf[n-1]`. -/
def readBuf (buf : Int → Nat) (n : Nat) : List Nat :=
  (List.range n).map fun (k : Nat) => buf (k : Int)

/-- The bytes written to the serial line between two snapshots of it. -/
def emitted (before after : List Nat) : List Nat :=
  after.drop before.length

/-- One step of the reference editor of the specification: backspace and delete
remove the last character of a non-empty string, any other character is
appended while the string is shorter than `size - 1`. -/
def editStep (size : Int) (str : List Nat) (c : Nat) : List Nat :=
  if c = BS ∨ c = DEL then
    if str ≠ [] then str.dropLast else str
  else if (str.length : Int) < size - 1 then str ++ [c] else str

/-- The reference editor of the specification: the fold of `editStep` over the
typed characters, starting from the empty string. -/
def edit (size : Int) (w : List Nat) : List Nat :=
  w.foldl (editStep size) []

/-- A start-of-line state: cursor `0`, any buffer contents, any earlier output. -/
def start (buf : Int → Nat) (out : List Nat) : EditState :=
  { index := 0, buf := buf, out := out }

/-- The state `s` holds the string `str` as its line in progress: the cursor is
the length of `str` and the buffer positions below the cursor are `str`. -/
def Holds (s : EditState) (str : List Nat) : Prop :=
  s.index = (str.length : Int) ∧ readBuf s.buf str.length = str

instance (s : EditState) (str : List Nat) : Decidable (Holds s str) := by
  unfold Holds
  infer_instance

/-- The characters that reach the default branch of the `switch`. -/
def Plain (c : Nat) : Prop :=
  c ≠ CR ∧ c ≠ LF ∧ c ≠ BS ∧ c ≠ DEL

instance (c : Nat) : Decidable (Plain c) := by
  unfold Plain
  infer_instance

/-- A buffer whose every byte is `0xFF`, for the worked examples: nothing in
it is a terminator before the editor writes one. -/
def junk : Int → Nat := fun _ => 0xFF

/-- A buffer whose every byte is `0`, for the worked examples. -/
def zeros : Int → Nat := fun _ => 0

/-- The offset of the store into `buf` that a call performs, when it performs
one: `buf[index] = 0` in the CR/LF arm and `buf[index++] = c` in the default
arm below `size - 1`; the BS/DEL arm and the two bell paths store nothing. -/
def store_offset (c : Nat) (size : Int) (s : EditState) : Option Int :=
  if c = CR ∨ c = LF then some s.index
  else if c = BS ∨ c = DEL then none
  else if s.index < size - 1 then some s.index
  else none

/-- The store `buf[i] = v` with checked indexing into a buffer of `size` bytes:
`none` is the out-of-range branch. -/
def store_checked (buf : Int → Nat) (size i : Int) (v : Nat) : Option (Int → Nat) :=
  if 0 ≤ i ∧ i < size then some (Function.update buf i v) else none

/-- The function `line_edit` with `buf` taken as an array of exactly `size`
bytes and both stores checked; the arms are those of `line_edit`. -/
def line_edit_checked (c : Nat) (size : Int) (s : EditState) : Option (Bool × EditState) :=
  if c = CR ∨ c = LF then
    -- buf[index] = 0; serial_putc(c); index = 0; return true;
    match store_checked s.buf size s.index 0 with
    | none => none
    | some b => some (true, { index := 0, buf := b, out := serial_putc c s.out })
  else if c = BS ∨ c = DEL then
    if s.index > 0 then
      some (false,
        { index := s.index - 1
          buf := s.buf
          out := serial_putc BS (serial_putc SPACE (serial_putc BS s.out)) })
    else
      some (false, { index := s.index, buf := s.buf, out := serial_putc BELL s.out })
  else
    if s.index < size - 1 then
      -- buf[index++] = c; serial_putc(c);
      match store_checked s.buf size s.index c with
      | none => none
      | some b => some (false, { index := s.index + 1, buf := b, out := serial_putc c s.out })
    else
      some (false, { index := s.index, buf := s.buf, out := serial_putc BELL s.out })

/-- The caller's loop of `feed` over `line_edit_checked`: `none` as soon as one
call takes the out-of-range branch. -/
def feed_checked (size : Int) : EditState → List Nat → Option (List Bool × EditState)
  | s, [] => some ([], s)
  | s, c :: cs =>
    match line_edit_checked c size s with
    | none => none
    | some r =>
      match feed_checked size r.2 cs with
      | none => none
      | some rest => some (r.1 :: rest.1, rest.2)

/-- A caller's loop in which every call brings its own `size` (the pairs are
character and size), as when several call sites share the one static cursor. -/
def feed_sizes : EditState → List (Nat × Int) → List Bool × EditState
  | s, [] => ([], s)
  | s, p :: ps =>
    let r := line_edit p.1 p.2 s
    let rest := feed_sizes r.2 ps
    (r.1 :: rest.1, rest.2)

/-- One step of the reference line of the specification, terminators included:
CR and LF reset the line to the empty string, every other character acts as in
`editStep`. -/
def lineStep (size : Int) (str : List Nat) (c : Nat) : List Nat :=
  if c = CR ∨ c = LF then [] else editStep size str c

/-- The characters typed and not erased since the last reset, after the calls
`w`: the fold of `lineStep` from the empty string. -/
def pending (size : Int) (w : List Nat) : List Nat :=
  w.foldl (lineStep size) []

/-- The line handed to the caller by the terminator `t` that follows the calls
`w`: the buffer after that call, from offset 0 up to and including the offset
at which the terminator call found the cursor. -/
def completed_line (size : Int) (s : EditState) (w : List Nat) (t : Nat) : List Nat :=
  readBuf (feed size s (w ++ [t])).2.buf ((feed size s w).2.index.toNat + 1)

/-- Two states that differ at most in the byte at offset `i` and in their
output, the byte at `i` being allowed to differ only while the cursor has not
passed `i`. -/
def Agree (i : Int) (s1 s2 : EditState) : Prop :=
  s1.index = s2.index ∧ (∀ j, j ≠ i → s1.buf j = s2.buf j) ∧
    (s1.buf i = s2.buf i ∨ s1.index ≤ i)

/-- The example of interleaved use: five ordinary characters `a b c d e`, each
passed with size 8. -/
def typed5 : List (Nat × Int) :=
  [(0x61, 8), (0x62, 8), (0x63, 8), (0x64, 8), (0x65, 8)]

/-- A buffer holding `ab` at offsets 0 and 1 and `0xFF` elsewhere, for the
worked examples. -/
def bufAB : Int → Nat :=
  Function.update (Function.update junk 0 0x61) 1 0x62

/-! ## Basic facts about one call -/

theorem line_edit_terminator (c : Nat) (size : Int) (s : EditState)
    (hc : c = CR ∨ c = LF) :
    line_edit c size s =
      (true, { index := 0, buf := Function.update s.buf s.index 0,
               out := s.out ++ [c] }) := by
  simp [line_edit, hc, serial_putc]

theorem line_edit_ret (c : Nat) (size : Int) (s : EditState) :
    (line_edit c size s).1 = true ↔ (c = CR ∨ c = LF) := by
  unfold line_edit
  split_ifs <;> simp_all

theorem feed_nil (size : Int) (s : EditState) : feed size s [] = ([], s) := rfl

theorem feed_cons (size : Int) (s : EditState) (c : Nat) (cs : List Nat) :
    feed size s (c :: cs) =
      ((line_edit c size s).1 :: (feed size (line_edit c size s).2 cs).1,
        (feed size (line_edit c size s).2 cs).2) := rfl

theorem feed_append (size : Int) (s : EditState) (u v : List Nat) :
    feed size s (u ++ v) =
      ((feed size s u).1 ++ (feed size (feed size s u).2 v).1,
        (feed size (feed size s u).2 v).2) := by
  induction u generalizing s with
  | nil => simp [feed_nil]
  | cons c cs ih => simp [feed_cons, ih]

theorem feed_rets_false (size : Int) (s : EditState) (w : List Nat)
    (hw : ∀ x ∈ w, x ≠ CR ∧ x ≠ LF) :
    (feed size s w).1 = List.replicate w.length false := by
  induction w generalizing s with
  | nil => rfl
  | cons c cs ih =>
    have hc : ¬ (c = CR ∨ c = LF) := by
      have := hw c (List.mem_cons_self _ _)
      tauto
    have h1 : (line_edit c size s).1 = false := by
      have := (line_edit_ret c size s).not.mpr hc
      simpa using this
    rw [feed_cons]
    simp only [List.length_cons, List.replicate_succ, h1]
    rw [ih _ (fun x hx => hw x (List.mem_cons_of_mem _ hx))]

/-! ## Reading the buffer -/

theorem readBuf_length (buf : Int → Nat) (n : Nat) : (readBuf buf n).length = n := by
  simp [readBuf]

theorem readBuf_succ (buf : Int → Nat) (n : Nat) :
    readBuf buf (n + 1) = readBuf buf n ++ [buf (n : Int)] := by
  simp [readBuf, List.range_succ]

theorem readBuf_update_of_le (buf : Int → Nat) (i : Int) (v : Nat) (n : Nat)
    (h : (n : Int) ≤ i) : readBuf (Function.update buf i v) n = readBuf buf n := by
  unfold readBuf
  apply List.map_congr_left
  intro k hk
  have hk2 : k < n := List.mem_range.mp hk
  have : (k : Int) ≠ i := by omega
  simp [Function.update, this]

/-! ## The code follows the reference editor -/

theorem holds_step (size : Int) (s : EditState) (str : List Nat) (c : Nat)
    (hs : Holds s str) (hc : ¬ (c = CR ∨ c = LF)) :
    Holds (line_edit c size s).2 (editStep size str c) := by
  obtain ⟨hi, hb⟩ := hs
  unfold line_edit editStep
  rw [if_neg hc]
  by_cases hbs : c = BS ∨ c = DEL
  · rw [if_pos hbs, if_pos hbs]
    by_cases hpos : s.index > 0
    · rw [if_pos hpos]
      have hne : str ≠ [] := by
        intro h0
        rw [h0] at hi
        simp at hi
        omega
      rw [if_pos hne]
      obtain ⟨m, hm⟩ : ∃ m, str.length = m + 1 :=
        Nat.exists_eq_succ_of_ne_zero (by simpa using hne)
      have hd : str.dropLast = readBuf s.buf m := by
        rw [← hb, hm, readBuf_succ, List.dropLast_concat]
      refine ⟨?_, ?_⟩
      · simp only [List.length_dropLast, hm, Nat.add_sub_cancel]
        rw [hi, hm]
        push_cast
        ring
      · simp only [List.length_dropLast, hm, Nat.add_sub_cancel]
        exact hd.symm
    · rw [if_neg hpos]
      have h0 : str = [] := by
        have : str.length = 0 := by omega
        exact List.length_eq_zero.mp this
      subst h0
      simp only [ne_eq, not_true_eq_false, if_false]
      exact ⟨hi, hb⟩
  · rw [if_neg hbs, if_neg hbs]
    by_cases hroom : s.index < size - 1
    · have hroom2 : (str.length : Int) < size - 1 := by rw [← hi]; exact hroom
      rw [if_pos hroom, if_pos hroom2]
      refine ⟨?_, ?_⟩
      · simp [hi]
      · simp only [List.length_append, List.length_singleton]
        rw [readBuf_succ, readBuf_update_of_le _ _ _ _ (by rw [hi]), hb, hi]
        simp
    · have hroom2 : ¬ (str.length : Int) < size - 1 := by rw [← hi]; exact hroom
      rw [if_neg hroom, if_neg hroom2]
      exact ⟨hi, hb⟩

theorem holds_feed (size : Int) (w : List Nat) (s : EditState) (str : List Nat)
    (hs : Holds s str) (hw : ∀ x ∈ w, x ≠ CR ∧ x ≠ LF) :
    Holds (feed size s w).2 (w.foldl (editStep size) str) := by
  induction w generalizing s str with
  | nil => exact hs
  | cons c cs ih =>
    rw [feed_cons, List.foldl_cons]
    have hc : ¬ (c = CR ∨ c = LF) := by
      have := hw c (List.mem_cons_self _ _)
      tauto
    exact ih _ _ (holds_step size s str c hs hc)
      (fun x hx => hw x (List.mem_cons_of_mem _ hx))

theorem holds_start (buf : Int → Nat) (out : List Nat) : Holds (start buf out) [] := by
  simp [Holds, start, readBuf]

theorem holds_terminate (size : Int) (s : EditState) (str : List Nat) (t : Nat)
    (hs : Holds s str) (ht : t = CR ∨ t = LF) :
    readBuf (line_edit t size s).2.buf (str.length + 1) = str ++ [0] := by
  obtain ⟨hi, hb⟩ := hs
  rw [line_edit_terminator t size s ht]
  simp only
  rw [readBuf_succ, readBuf_update_of_le _ _ _ _ (by rw [hi]), hb, hi]
  simp

/-! ## Plain characters and the cursor -/

theorem line_edit_plain_room (c : Nat) (size : Int) (s : EditState)
    (hc : Plain c) (hroom : s.index < size - 1) :
    line_edit c size s =
      (false, { index := s.index + 1, buf := Function.update s.buf s.index c,
                out := s.out ++ [c] }) := by
  obtain ⟨h1, h2, h3, h4⟩ := hc
  simp [line_edit, h1, h2, h3, h4, hroom, serial_putc]

theorem line_edit_plain_full (c : Nat) (size : Int) (s : EditState)
    (hc : Plain c) (hfull : ¬ s.index < size - 1) :
    line_edit c size s =
      (false, { index := s.index, buf := s.buf, out := s.out ++ [BELL] }) := by
  obtain ⟨h1, h2, h3, h4⟩ := hc
  simp [line_edit, h1, h2, h3, h4, hfull, serial_putc]

theorem line_edit_erase (c : Nat) (size : Int) (s : EditState)
    (hc : c = BS ∨ c = DEL) (hpos : 0 < s.index) :
    line_edit c size s =
      (false, { index := s.index - 1, buf := s.buf,
                out := s.out ++ [BS, SPACE, BS] }) := by
  have hn : ¬ (c = CR ∨ c = LF) := by
    rcases hc with h | h <;> rw [h] <;> decide
  simp [line_edit, hn, hc, hpos, serial_putc]

theorem line_edit_erase_empty (c : Nat) (size : Int) (s : EditState)
    (hc : c = BS ∨ c = DEL) (hzero : ¬ 0 < s.index) :
    line_edit c size s =
      (false, { index := s.index, buf := s.buf, out := s.out ++ [BELL] }) := by
  have hn : ¬ (c = CR ∨ c = LF) := by
    rcases hc with h | h <;> rw [h] <;> decide
  simp [line_edit, hn, hc, hzero, serial_putc]

theorem index_step (c : Nat) (size : Int) (s : EditState) (hsize : 1 ≤ size)
    (h : 0 ≤ s.index ∧ s.index < size) :
    0 ≤ (line_edit c size s).2.index ∧ (line_edit c size s).2.index < size := by
  unfold line_edit
  split_ifs <;> simp only <;> omega

theorem index_feed (size : Int) (w : List Nat) (s : EditState) (hsize : 1 ≤ size)
    (h : 0 ≤ s.index ∧ s.index < size) :
    0 ≤ (feed size s w).2.index ∧ (feed size s w).2.index < size := by
  induction w generalizing s with
  | nil => exact h
  | cons c cs ih =>
    rw [feed_cons]
    exact ih _ (index_step c size s hsize h)

theorem feed_plain (size : Int) (u : List Nat) (s : EditState)
    (hu : ∀ x ∈ u, Plain x) (hroom : s.index + (u.length : Int) ≤ size - 1) :
    (feed size s u).2.index = s.index + (u.length : Int) ∧
    (feed size s u).2.out = s.out ++ u := by
  induction u generalizing s with
  | nil => simp [feed_nil]
  | cons c cs ih =>
    have hc : Plain c := hu c (List.mem_cons_self _ _)
    have hlen : ((c :: cs).length : Int) = (cs.length : Int) + 1 := by simp
    rw [hlen] at hroom
    rw [feed_cons, line_edit_plain_room c size s hc (by omega)]
    have := ih { index := s.index + 1, buf := Function.update s.buf s.index c,
                 out := s.out ++ [c] }
      (fun x hx => hu x (List.mem_cons_of_mem _ hx)) (by simp only; omega)
    simp only at this
    refine ⟨?_, ?_⟩
    · rw [this.1, hlen]; ring
    · rw [this.2]; simp

theorem fold_plain (size : Int) (u str : List Nat) (hu : ∀ x ∈ u, Plain x)
    (hroom : (str.length : Int) + (u.length : Int) ≤ size - 1) :
    u.foldl (editStep size) str = str ++ u := by
  induction u generalizing str with
  | nil => simp
  | cons c cs ih =>
    obtain ⟨-, -, h3, h4⟩ := hu c (List.mem_cons_self _ _)
    have hlen : ((c :: cs).length : Int) = (cs.length : Int) + 1 := by simp
    rw [hlen] at hroom
    have hstep : editStep size str c = str ++ [c] := by
      have : (str.length : Int) < size - 1 := by omega
      simp [editStep, h3, h4, this]
    rw [List.foldl_cons, hstep,
      ih _ (fun x hx => hu x (List.mem_cons_of_mem _ hx)) (by simp; omega)]
    simp

theorem edit_length_le (size : Int) (w str : List Nat)
    (h : (str.length : Int) ≤ size - 1) :
    ((w.foldl (editStep size) str).length : Int) ≤ size - 1 := by
  induction w generalizing str with
  | nil => exact h
  | cons c cs ih =>
    rw [List.foldl_cons]
    apply ih
    unfold editStep
    split_ifs
    · rw [List.length_dropLast]; omega
    · exact h
    · rw [List.length_append, List.length_singleton]; push_cast; omega
    · exact h

theorem emitted_append (out x : List Nat) : emitted out (out ++ x) = x := by
  simp [emitted]

/-! ## The line in progress, terminators included -/

theorem holds_step_any (size : Int) (s : EditState) (str : List Nat) (c : Nat)
    (hs : Holds s str) : Holds (line_edit c size s).2 (lineStep size str c) := by
  unfold lineStep
  by_cases hc : c = CR ∨ c = LF
  · rw [if_pos hc, line_edit_terminator c size s hc]
    simp [Holds, readBuf]
  · rw [if_neg hc]
    exact holds_step size s str c hs hc

theorem holds_feed_any (size : Int) (w : List Nat) (s : EditState) (str : List Nat)
    (hs : Holds s str) : Holds (feed size s w).2 (w.foldl (lineStep size) str) := by
  induction w generalizing s str with
  | nil => exact hs
  | cons c cs ih =>
    rw [feed_cons, List.foldl_cons]
    exact ih _ _ (holds_step_any size s str c hs)

theorem pending_length_le (size : Int) (w str : List Nat) (hsize : 1 ≤ size)
    (h : (str.length : Int) ≤ size - 1) :
    ((w.foldl (lineStep size) str).length : Int) ≤ size - 1 := by
  induction w generalizing str with
  | nil => exact h
  | cons c cs ih =>
    rw [List.foldl_cons]
    apply ih
    unfold lineStep
    split_ifs
    · simp only [List.length_nil, Nat.cast_zero]; omega
    · exact edit_length_le size [c] str h

/-! ## Stores and checked indexing -/

theorem store_offset_eq_index (c : Nat) (size : Int) (s : EditState) (o : Int)
    (h : store_offset c size s = some o) : o = s.index := by
  unfold store_offset at h
  split_ifs at h <;> simp_all

theorem buf_of_store_offset_none (c : Nat) (size : Int) (s : EditState)
    (h : store_offset c size s = none) : (line_edit c size s).2.buf = s.buf := by
  unfold store_offset at h
  unfold line_edit
  split_ifs at h ⊢ <;> simp_all

theorem buf_off_cursor (c : Nat) (size : Int) (s : EditState) (j : Int)
    (hj : j ≠ s.index) : (line_edit c size s).2.buf j = s.buf j := by
  unfold line_edit
  split_ifs <;> simp [Function.update, hj]

theorem line_edit_checked_of_range (c : Nat) (size : Int) (s : EditState)
    (h : 0 ≤ s.index ∧ s.index < size) :
    line_edit_checked c size s = some (line_edit c size s) := by
  unfold line_edit_checked line_edit store_checked
  split_ifs <;> rfl

theorem line_edit_checked_none_iff (c : Nat) (size : Int) (s : EditState) :
    line_edit_checked c size s = none ↔
      ∃ o, store_offset c size s = some o ∧ ¬ (0 ≤ o ∧ o < size) := by
  unfold line_edit_checked store_checked store_offset
  split_ifs <;> simp_all

theorem feed_checked_of_range (size : Int) (w : List Nat) (s : EditState)
    (hsize : 1 ≤ size) (h : 0 ≤ s.index ∧ s.index < size) :
    feed_checked size s w = some (feed size s w) := by
  induction w generalizing s with
  | nil => rfl
  | cons c cs ih =>
    have hstep := ih (line_edit c size s).2 (index_step c size s hsize h)
    simp only [feed_checked, line_edit_checked_of_range c size s h, hstep, feed_cons]

/-! ## States that differ in one byte behind the cursor -/

theorem index_nonneg_step (c : Nat) (size : Int) (s : EditState) (h : 0 ≤ s.index) :
    0 ≤ (line_edit c size s).2.index := by
  unfold line_edit
  split_ifs <;> simp only <;> omega

theorem index_nonneg_feed (size : Int) (w : List Nat) (s : EditState) (h : 0 ≤ s.index) :
    0 ≤ (feed size s w).2.index := by
  induction w generalizing s with
  | nil => exact h
  | cons c cs ih =>
    rw [feed_cons]
    exact ih _ (index_nonneg_step c size s h)

theorem agree_step (i : Int) (hi : 0 ≤ i) (c : Nat) (size : Int) (s1 s2 : EditState)
    (h : Agree i s1 s2) :
    (line_edit c size s1).1 = (line_edit c size s2).1 ∧
    Agree i (line_edit c size s1).2 (line_edit c size s2).2 := by
  obtain ⟨hidx, hoff, hor⟩ := h
  by_cases hterm : c = CR ∨ c = LF
  · rw [line_edit_terminator c size s1 hterm, line_edit_terminator c size s2 hterm]
    refine ⟨rfl, rfl, fun j hj => ?_, Or.inr hi⟩
    simp only [Function.update_apply, hidx]
    split_ifs
    · rfl
    · exact hoff j hj
  · by_cases hbs : c = BS ∨ c = DEL
    · by_cases hpos : 0 < s1.index
      · rw [line_edit_erase c size s1 hbs hpos,
          line_edit_erase c size s2 hbs (by rw [← hidx]; exact hpos)]
        refine ⟨rfl, by simp only [hidx], hoff, ?_⟩
        rcases hor with h1 | h2
        · exact Or.inl h1
        · exact Or.inr (by simp only; omega)
      · rw [line_edit_erase_empty c size s1 hbs hpos,
          line_edit_erase_empty c size s2 hbs (by rw [← hidx]; exact hpos)]
        exact ⟨rfl, hidx, hoff, hor⟩
    · have hplain : Plain c := by
        unfold Plain
        tauto
      by_cases hroom : s1.index < size - 1
      · rw [line_edit_plain_room c size s1 hplain hroom,
          line_edit_plain_room c size s2 hplain (by rw [← hidx]; exact hroom)]
        refine ⟨rfl, by simp only [hidx], fun j hj => ?_, ?_⟩
        · simp only [Function.update_apply, hidx]
          split_ifs
          · rfl
          · exact hoff j hj
        · simp only [Function.update_apply, ← hidx]
          by_cases hik : i = s1.index
          · left; rw [if_pos hik, if_pos hik]
          · rcases hor with h1 | h2
            · left; rw [if_neg hik, if_neg hik]; exact h1
            · right; omega
      · rw [line_edit_plain_full c size s1 hplain hroom,
          line_edit_plain_full c size s2 hplain (by rw [← hidx]; exact hroom)]
        exact ⟨rfl, hidx, hoff, hor⟩

theorem agree_feed (i : Int) (hi : 0 ≤ i) (size : Int) (w : List Nat) (s1 s2 : EditState)
    (h : Agree i s1 s2) :
    (feed size s1 w).1 = (feed size s2 w).1 ∧
    Agree i (feed size s1 w).2 (feed size s2 w).2 := by
  induction w generalizing s1 s2 with
  | nil => exact ⟨rfl, h⟩
  | cons c cs ih =>
    have hs := agree_step i hi c size s1 s2 h
    have hr := ih _ _ hs.2
    rw [feed_cons, feed_cons, hs.1, hr.1]
    exact ⟨rfl, hr.2⟩

theorem agree_completed_line (i : Int) (hi : 0 ≤ i) (size : Int) (w : List Nat) (t : Nat)
    (s1 s2 : EditState) (h : Agree i s1 s2) (h0 : 0 ≤ s1.index)
    (ht : t = CR ∨ t = LF) :
    completed_line size s1 w t = completed_line size s2 w t := by
  obtain ⟨-, hidx, hoff, hor⟩ := agree_feed i hi size w s1 s2 h
  have hk := index_nonneg_feed size w s1 h0
  unfold completed_line
  rw [feed_append, feed_append, feed_cons, feed_cons, feed_nil, feed_nil,
    line_edit_terminator t size _ ht, line_edit_terminator t size _ ht, ← hidx]
  unfold readBuf
  apply List.map_congr_left
  intro n hn
  have hn2 : n < (feed size s1 w).2.index.toNat + 1 := List.mem_range.mp hn
  have hn3 : (n : Int) ≤ (feed size s1 w).2.index := by omega
  simp only [Function.update_apply]
  split_ifs with hnk
  · rfl
  · by_cases hni : (n : Int) = i
    · rcases hor with h1 | h2
      · rw [hni]; exact h1
      · omega
    · exact hoff _ hni

/-! ## The claims -/

/-- C1: whatever the cursor, the buffer, the size and the character `c`,
`line_edit` returns `true` exactly when `c` is CR (0x0D) or LF (0x0A); hence
feeding any sequence of characters that contains neither CR nor LF returns
`false` at every call. -/
theorem C1_returns_true_iff_terminator (c : Nat) (size : Int) (s : EditState) :
    ((line_edit c size s).1 = true ↔ (c = CR ∨ c = LF)) ∧
    (∀ w : List Nat, (∀ x ∈ w, x ≠ CR ∧ x ≠ LF) →
      (feed size s w).1 = List.replicate w.length false ∧
      ∀ b ∈ (feed size s w).1, b = false) := by
  refine ⟨line_edit_ret c size s, fun w hw => ?_⟩
  have h := feed_rets_false size s w hw
  refine ⟨h, fun b hb => ?_⟩
  rw [h] at hb
  exact (List.mem_replicate.mp hb).2

/-- C1, worked example: four characters, none of them a terminator (a letter,
BS, NUL, DEL), fed with size 8 from a start state: every call returns `false`. -/
theorem C1_witness :
    (feed 8 (start junk []) [0x61, 0x08, 0x00, 0x7F]).1 = [false, false, false, false] :=
  ((C1_returns_true_iff_terminator 0x61 8 (start junk [])).2
    [0x61, 0x08, 0x00, 0x7F] (by decide)).1

/-- C2: for every size of at least 1 and every sequence `w` free of CR and LF,
feeding `w` and then one terminator, from cursor 0 and with the same buffer and
size in every call, leaves the buffer holding the reference string `edit size w`
followed by a 0 terminator, the terminator lying inside the `size` bytes of the
buffer; every call but the last returns `false`, the last returns `true`, and
the cursor is back at 0. -/
theorem C2_line_is_reference_edit (size : Int) (w : List Nat) (t : Nat)
    (buf : Int → Nat) (out : List Nat)
    (hsize : 1 ≤ size) (hw : ∀ x ∈ w, x ≠ CR ∧ x ≠ LF) (ht : t = CR ∨ t = LF) :
    readBuf (feed size (start buf out) (w ++ [t])).2.buf ((edit size w).length + 1)
      = edit size w ++ [0] ∧
    ((edit size w).length : Int) + 1 ≤ size ∧
    (feed size (start buf out) (w ++ [t])).1 = List.replicate w.length false ++ [true] ∧
    (feed size (start buf out) (w ++ [t])).2.index = 0 := by
  have hH := holds_feed size w (start buf out) [] (holds_start buf out) hw
  have hT := holds_terminate size _ _ t hH ht
  have hL := edit_length_le size w [] (by simpa using hsize)
  rw [feed_append, feed_cons, feed_nil, feed_rets_false size _ w hw]
  refine ⟨hT, ?_, ?_, ?_⟩
  · unfold edit; omega
  · simp [line_edit_terminator t size _ ht]
  · simp [line_edit_terminator t size _ ht]

/-- C2, worked example of the specification: size 8, input `a b c BS x CR`
leaves `"abx"` and a terminator in the buffer, and the calls return
`false, false, false, false, false, true`. -/
theorem C2_witness :
    readBuf (feed 8 (start junk []) [0x61, 0x62, 0x63, 0x08, 0x78, 0x0D]).2.buf 4
      = [0x61, 0x62, 0x78, 0] ∧
    ((3 : Nat) : Int) + 1 ≤ 8 ∧
    (feed 8 (start junk []) [0x61, 0x62, 0x63, 0x08, 0x78, 0x0D]).1
      = [false, false, false, false, false, true] ∧
    (feed 8 (start junk []) [0x61, 0x62, 0x63, 0x08, 0x78, 0x0D]).2.index = 0 :=
  C2_line_is_reference_edit 8 [0x61, 0x62, 0x63, 0x08, 0x78] 0x0D junk []
    (by decide) (by decide) (by decide)

/-- C3: for every size of at least 1, starting from cursor 0 and using the same
size in every call, the cursor after any finite sequence of calls satisfies
`0 ≤ index < size`. -/
theorem C3_cursor_in_range (size : Int) (w : List Nat) (buf : Int → Nat)
    (out : List Nat) (hsize : 1 ≤ size) :
    0 ≤ (feed size (start buf out) w).2.index ∧
    (feed size (start buf out) w).2.index < size :=
  index_feed size w (start buf out) hsize ⟨le_refl _, by simpa [start] using hsize⟩

/-- C3, worked example: size 4 and the nine calls `a b c d BS e f CR g`; the
cursor ends at 1, inside `0 ≤ index < 4`. -/
theorem C3_witness :
    0 ≤ (feed 4 (start junk [])
          [0x61, 0x62, 0x63, 0x64, 0x08, 0x65, 0x66, 0x0D, 0x67]).2.index ∧
    (feed 4 (start junk [])
          [0x61, 0x62, 0x63, 0x64, 0x08, 0x65, 0x66, 0x0D, 0x67]).2.index < 4 :=
  C3_cursor_in_range 4 [0x61, 0x62, 0x63, 0x64, 0x08, 0x65, 0x66, 0x0D, 0x67] junk []
    (by decide)

/-- C4: for every size of at least 1 and every sequence `w` of exactly `size`
characters, none of them CR, LF, BS or DEL, feeding `w` and then CR from cursor
0 leaves the first `size - 1` characters of `w` followed by a 0 terminator in
the buffer (the last character of `w` is dropped); the bytes written to the
serial line are the accepted characters, one bell 0x07 and the CR, so the bell
occurs exactly once when no typed character is itself 0x07; every call returns
`false` except the final CR, which returns `true`. -/
theorem C4_overlong_line (size : Int) (w : List Nat) (buf : Int → Nat) (out : List Nat)
    (hsize : 1 ≤ size) (hlen : (w.length : Int) = size)
    (hw : ∀ x ∈ w, x ≠ CR ∧ x ≠ LF ∧ x ≠ BS ∧ x ≠ DEL) :
    readBuf (feed size (start buf out) (w ++ [CR])).2.buf w.length
      = w.take (w.length - 1) ++ [0] ∧
    emitted out (feed size (start buf out) (w ++ [CR])).2.out
      = w.take (w.length - 1) ++ [BELL, CR] ∧
    ((∀ x ∈ w, x ≠ BELL) →
      (emitted out (feed size (start buf out) (w ++ [CR])).2.out).count BELL = 1) ∧
    (feed size (start buf out) (w ++ [CR])).1 = List.replicate w.length false ++ [true] := by
  have hne : w ≠ [] := by
    intro h0
    rw [h0] at hlen
    simp at hlen
    omega
  obtain ⟨u, d, rfl⟩ : ∃ u d, w = u ++ [d] :=
    ⟨w.dropLast, w.getLast hne, (List.dropLast_append_getLast hne).symm⟩
  have hu : ∀ x ∈ u, Plain x := fun x hx => hw x (List.mem_append_left _ hx)
  have hd : Plain d := hw d (List.mem_append_right _ (List.mem_singleton_self d))
  have hul : (u.length : Int) = size - 1 := by
    rw [List.length_append, List.length_singleton] at hlen
    push_cast at hlen
    omega
  have htake : (u ++ [d]).take ((u ++ [d]).length - 1) = u := by simp
  have hcr : CR = CR ∨ CR = LF := Or.inl rfl
  -- the state after the accepted characters
  have hP := feed_plain size u (start buf out) hu (by simp only [start]; omega)
  have hH := holds_feed size u (start buf out) [] (holds_start buf out)
    (fun x hx => ⟨(hu x hx).1, (hu x hx).2.1⟩)
  rw [fold_plain size u [] hu (by simp; omega)] at hH
  simp only [List.nil_append] at hH
  have hfull : ¬ (feed size (start buf out) u).2.index < size - 1 := by
    rw [hP.1]; simp only [start]; omega
  -- the state after the dropped character
  have hD := line_edit_plain_full d size _ hd hfull
  have hH2 : Holds (line_edit d size (feed size (start buf out) u).2).2 u := by
    rw [hD]; exact hH
  have hT := holds_terminate size _ u CR hH2 hcr
  have hrets : (feed size (start buf out) (u ++ [d] ++ [CR])).1
      = List.replicate (u ++ [d]).length false ++ [true] := by
    rw [feed_append, feed_cons, feed_nil,
      feed_rets_false size _ (u ++ [d]) (fun x hx => ⟨(hw x hx).1, (hw x hx).2.1⟩)]
    simp [line_edit_terminator CR size _ hcr]
  have hout : (feed size (start buf out) (u ++ [d] ++ [CR])).2.out
      = out ++ (u ++ [BELL, CR]) := by
    rw [List.append_assoc, List.singleton_append, feed_append, feed_cons, feed_cons, feed_nil]
    simp only [line_edit_terminator CR size _ hcr, hD, hP.2]
    simp [start]
  have hbuf : (feed size (start buf out) (u ++ [d] ++ [CR])).2.buf
      = (line_edit CR size (line_edit d size (feed size (start buf out) u).2).2).2.buf := by
    rw [List.append_assoc, List.singleton_append, feed_append, feed_cons, feed_cons, feed_nil]
  rw [htake, hout, hbuf, emitted_append]
  refine ⟨?_, rfl, ?_, hrets⟩
  · rw [List.length_append, List.length_singleton]; exact hT
  · intro hb
    have h0 : u.count BELL = 0 :=
      List.count_eq_zero.mpr fun hmem => hb BELL (List.mem_append_left _ hmem) rfl
    rw [List.count_append, h0]
    decide

/-- C4, worked example of the specification: size 4, input `abcd` then CR:
the buffer holds `"abc"` and a terminator, the serial line received
`a b c BEL CR` with the bell once, and only the CR returns `true`. -/
theorem C4_witness :
    readBuf (feed 4 (start junk []) [0x61, 0x62, 0x63, 0x64, 0x0D]).2.buf 4
      = [0x61, 0x62, 0x63, 0] ∧
    emitted [] (feed 4 (start junk []) [0x61, 0x62, 0x63, 0x64, 0x0D]).2.out
      = [0x61, 0x62, 0x63, 0x07, 0x0D] ∧
    (emitted [] (feed 4 (start junk []) [0x61, 0x62, 0x63, 0x64, 0x0D]).2.out).count 0x07
      = 1 ∧
    (feed 4 (start junk []) [0x61, 0x62, 0x63, 0x64, 0x0D]).1
      = [false, false, false, false, true] :=
  have h := C4_overlong_line 4 [0x61, 0x62, 0x63, 0x64] junk []
    (by decide) (by decide) (by decide)
  ⟨h.1, h.2.1, h.2.2.1 (by decide), h.2.2.2⟩

/-- C5: for every buffer, size and cursor `i` with `0 ≤ i < size`, a call with
CR or LF writes 0 at `buf[i]`, leaves every other buffer position unchanged,
writes exactly the one byte `c` to the serial line, sets the cursor to 0 and
returns `true`.  (The store of the model is defined at every offset, so the
bound on `i`, kept from the claim, is not needed for the conclusion.) -/
theorem C5_terminator_call (c : Nat) (size i : Int) (buf : Int → Nat) (out : List Nat)
    (hc : c = CR ∨ c = LF) (_hi : 0 ≤ i ∧ i < size) :
    (line_edit c size ⟨i, buf, out⟩).2.buf i = 0 ∧
    (∀ j, j ≠ i → (line_edit c size ⟨i, buf, out⟩).2.buf j = buf j) ∧
    emitted out (line_edit c size ⟨i, buf, out⟩).2.out = [c] ∧
    (line_edit c size ⟨i, buf, out⟩).2.index = 0 ∧
    (line_edit c size ⟨i, buf, out⟩).1 = true := by
  rw [line_edit_terminator c size _ hc]
  refine ⟨by simp, fun j hj => by simp [Function.update, hj], emitted_append out [c],
    rfl, rfl⟩

/-- C5, worked example: LF with the cursor at 2 in a buffer of size 4 holding
`0xFF` everywhere: position 2 becomes 0, positions 0, 1 and 3 keep `0xFF`, the
line receives the LF, the cursor is 0 and the call returns `true`. -/
theorem C5_witness :
    (line_edit 0x0A 4 ⟨2, junk, [0x61, 0x62]⟩).2.buf 2 = 0 ∧
    (∀ j, j ≠ 2 → (line_edit 0x0A 4 ⟨2, junk, [0x61, 0x62]⟩).2.buf j = junk j) ∧
    emitted [0x61, 0x62] (line_edit 0x0A 4 ⟨2, junk, [0x61, 0x62]⟩).2.out = [0x0A] ∧
    (line_edit 0x0A 4 ⟨2, junk, [0x61, 0x62]⟩).2.index = 0 ∧
    (line_edit 0x0A 4 ⟨2, junk, [0x61, 0x62]⟩).1 = true :=
  C5_terminator_call 0x0A 4 2 junk [0x61, 0x62] (by decide) (by decide)

/-- C6: for every buffer and size, a call with BS (0x08) or DEL (0x7F) while the
cursor is 0 returns `false`, leaves the cursor at 0 and the buffer unchanged,
and writes exactly one byte, the bell 0x07; so the next accepted character (any
character other than CR, LF, BS, DEL, the buffer having room for one) is stored
at position 0. -/
theorem C6_erase_on_empty_line (c : Nat) (size : Int) (buf : Int → Nat) (out : List Nat)
    (hc : c = BS ∨ c = DEL) :
    line_edit c size ⟨0, buf, out⟩ = (false, ⟨0, buf, out ++ [BELL]⟩) ∧
    emitted out (line_edit c size ⟨0, buf, out⟩).2.out = [BELL] ∧
    (∀ d : Nat, (d ≠ CR ∧ d ≠ LF ∧ d ≠ BS ∧ d ≠ DEL) → 0 < size - 1 →
      (line_edit d size (line_edit c size ⟨0, buf, out⟩).2).2.buf 0 = d ∧
      (line_edit d size (line_edit c size ⟨0, buf, out⟩).2).2.index = 1) := by
  have h := line_edit_erase_empty c size ⟨0, buf, out⟩ hc (by simp)
  simp only at h
  rw [h]
  refine ⟨rfl, emitted_append out [BELL], fun d hd hroom => ?_⟩
  rw [line_edit_plain_room d size _ hd (by simpa using hroom)]
  simp

/-- C6, worked example: DEL at the start of a line with size 4, then `a`: one
bell is written, nothing else changes, and the `a` lands at position 0. -/
theorem C6_witness :
    line_edit 0x7F 4 ⟨0, junk, []⟩ = (false, ⟨0, junk, [0x07]⟩) ∧
    emitted [] (line_edit 0x7F 4 ⟨0, junk, []⟩).2.out = [0x07] ∧
    (line_edit 0x61 4 (line_edit 0x7F 4 ⟨0, junk, []⟩).2).2.buf 0 = 0x61 ∧
    (line_edit 0x61 4 (line_edit 0x7F 4 ⟨0, junk, []⟩).2).2.index = 1 :=
  have h := C6_erase_on_empty_line 0x7F 4 junk [] (by decide)
  ⟨h.1, h.2.1, h.2.2 0x61 (by decide) (by decide)⟩

/-- C7: for every buffer, size and cursor `i > 0`, a call with BS (0x08) or DEL
(0x7F) returns `false`, sets the cursor to `i - 1`, leaves the buffer as it is
and writes exactly the three bytes 0x08, 0x20, 0x08 in that order; BS and DEL
give the same returned value, output and state. -/
theorem C7_erase (c : Nat) (size i : Int) (buf : Int → Nat) (out : List Nat)
    (hc : c = BS ∨ c = DEL) (hi : 0 < i) :
    line_edit c size ⟨i, buf, out⟩ = (false, ⟨i - 1, buf, out ++ [0x08, 0x20, 0x08]⟩) ∧
    emitted out (line_edit c size ⟨i, buf, out⟩).2.out = [0x08, 0x20, 0x08] ∧
    line_edit BS size ⟨i, buf, out⟩ = line_edit DEL size ⟨i, buf, out⟩ := by
  have h := line_edit_erase c size ⟨i, buf, out⟩ hc hi
  have hb := line_edit_erase BS size ⟨i, buf, out⟩ (Or.inl rfl) hi
  have hd := line_edit_erase DEL size ⟨i, buf, out⟩ (Or.inr rfl) hi
  simp only at h hb hd
  rw [h, hb, hd]
  exact ⟨rfl, emitted_append out _, rfl⟩

/-- C7, worked example: BS with the cursor at 3 and `abc` already echoed: the
cursor becomes 2 and the line receives `08 20 08`; DEL does the same. -/
theorem C7_witness :
    line_edit 0x08 8 ⟨3, junk, [0x61, 0x62, 0x63]⟩
      = (false, ⟨2, junk, [0x61, 0x62, 0x63, 0x08, 0x20, 0x08]⟩) ∧
    emitted [0x61, 0x62, 0x63] (line_edit 0x08 8 ⟨3, junk, [0x61, 0x62, 0x63]⟩).2.out
      = [0x08, 0x20, 0x08] ∧
    line_edit BS 8 ⟨3, junk, [0x61, 0x62, 0x63]⟩
      = line_edit DEL 8 ⟨3, junk, [0x61, 0x62, 0x63]⟩ :=
  C7_erase 0x08 8 3 junk [0x61, 0x62, 0x63] (by decide) (by decide)

/-- C8: for every size of at least 1 and every buffer, a call with the cursor at
`size - 1` and a character that is none of CR, LF, BS, DEL returns `false`,
leaves the cursor and the whole buffer unchanged and writes exactly one byte,
the bell 0x07; the character is not echoed.  (The branch is decided by the
cursor alone, so the bound on `size`, kept from the claim, is not needed.) -/
theorem C8_full_buffer (c : Nat) (size : Int) (buf : Int → Nat) (out : List Nat)
    (_hsize : 1 ≤ size) (hc : c ≠ CR ∧ c ≠ LF ∧ c ≠ BS ∧ c ≠ DEL) :
    line_edit c size ⟨size - 1, buf, out⟩ = (false, ⟨size - 1, buf, out ++ [BELL]⟩) ∧
    emitted out (line_edit c size ⟨size - 1, buf, out⟩).2.out = [BELL] := by
  have h := line_edit_plain_full c size ⟨size - 1, buf, out⟩ hc (by simp)
  simp only at h
  rw [h]
  exact ⟨rfl, emitted_append out [BELL]⟩

/-- C8, worked example: `d` with the cursor at 3 in a buffer of size 4: a bell,
no echo, no change. -/
theorem C8_witness :
    line_edit 0x64 4 ⟨3, junk, [0x61, 0x62, 0x63]⟩
      = (false, ⟨3, junk, [0x61, 0x62, 0x63, 0x07]⟩) ∧
    emitted [0x61, 0x62, 0x63] (line_edit 0x64 4 ⟨3, junk, [0x61, 0x62, 0x63]⟩).2.out
      = [0x07] :=
  C8_full_buffer 0x64 4 junk [0x61, 0x62, 0x63] (by decide) (by decide)

/-- C9: for every character `c` that is none of CR (0x0D), LF (0x0A), BS (0x08),
DEL (0x7F) and every cursor `i` with `0 ≤ i < size - 1`, a call returns `false`,
stores `c` at `buf[i]` (and nowhere else), sets the cursor to `i + 1` and writes
exactly the one byte `c`; the control bytes 0x00, 0x07 and 0x1B are among these
characters, so nothing is filtered. -/
theorem C9_accept (c : Nat) (size i : Int) (buf : Int → Nat) (out : List Nat)
    (hc : c ≠ CR ∧ c ≠ LF ∧ c ≠ BS ∧ c ≠ DEL) (hi : 0 ≤ i ∧ i < size - 1) :
    line_edit c size ⟨i, buf, out⟩
      = (false, ⟨i + 1, Function.update buf i c, out ++ [c]⟩) ∧
    (line_edit c size ⟨i, buf, out⟩).2.buf i = c ∧
    emitted out (line_edit c size ⟨i, buf, out⟩).2.out = [c] ∧
    (∀ k : Nat, k = 0x00 ∨ k = 0x07 ∨ k = 0x1B →
      line_edit k size ⟨i, buf, out⟩
        = (false, ⟨i + 1, Function.update buf i k, out ++ [k]⟩)) := by
  have key : ∀ k : Nat, Plain k →
      line_edit k size ⟨i, buf, out⟩
        = (false, ⟨i + 1, Function.update buf i k, out ++ [k]⟩) := fun k hk =>
    line_edit_plain_room k size ⟨i, buf, out⟩ hk hi.2
  rw [key c hc]
  refine ⟨rfl, by simp, emitted_append out [c], fun k hk => key k ?_⟩
  rcases hk with h | h | h <;> rw [h] <;> decide

/-- C9, worked example: the escape byte 0x1B with the cursor at 1 in a buffer of
size 4 is stored at position 1 and echoed like a printable character. -/
theorem C9_witness :
    line_edit 0x1B 4 ⟨1, junk, [0x61]⟩
      = (false, ⟨2, Function.update junk 1 0x1B, [0x61, 0x1B]⟩) ∧
    (line_edit 0x1B 4 ⟨1, junk, [0x61]⟩).2.buf 1 = 0x1B ∧
    emitted [0x61] (line_edit 0x1B 4 ⟨1, junk, [0x61]⟩).2.out = [0x1B] ∧
    line_edit 0x00 4 ⟨1, junk, [0x61]⟩
      = (false, ⟨2, Function.update junk 1 0x00, [0x61, 0x00]⟩) :=
  have h := C9_accept 0x1B 4 1 junk [0x61] (by decide) (by decide)
  ⟨h.1, h.2.1, h.2.2.1, h.2.2.2 0x00 (Or.inl rfl)⟩

/-- C10: for every buffer and size of at least 1, starting with cursor 0, two
consecutive calls with CR both return `true`, and after each of the two calls
the buffer holds the empty string (`buf[0] = 0`) and the cursor is 0.  (The
terminator branch does not read `size`, so the bound, kept from the claim, is
not needed for the conclusion.) -/
theorem C10_two_terminators (size : Int) (buf : Int → Nat) (out : List Nat)
    (_hsize : 1 ≤ size) :
    (line_edit CR size (start buf out)).1 = true ∧
    (line_edit CR size (start buf out)).2.buf 0 = 0 ∧
    (line_edit CR size (start buf out)).2.index = 0 ∧
    (line_edit CR size (line_edit CR size (start buf out)).2).1 = true ∧
    (line_edit CR size (line_edit CR size (start buf out)).2).2.buf 0 = 0 ∧
    (line_edit CR size (line_edit CR size (start buf out)).2).2.index = 0 ∧
    (feed size (start buf out) [CR, CR]).1 = [true, true] := by
  have hcr : CR = CR ∨ CR = LF := Or.inl rfl
  rw [feed_cons, feed_cons, feed_nil]
  simp only [line_edit_terminator CR size _ hcr]
  simp [start]

/-- C10, worked example: size 4 and a buffer of `0xFF` bytes: CR, CR returns
`true, true` and leaves the empty string and cursor 0 both times. -/
theorem C10_witness :
    (line_edit CR 4 (start junk [])).1 = true ∧
    (line_edit CR 4 (start junk [])).2.buf 0 = 0 ∧
    (line_edit CR 4 (start junk [])).2.index = 0 ∧
    (line_edit CR 4 (line_edit CR 4 (start junk [])).2).1 = true ∧
    (line_edit CR 4 (line_edit CR 4 (start junk [])).2).2.buf 0 = 0 ∧
    (line_edit CR 4 (line_edit CR 4 (start junk [])).2).2.index = 0 ∧
    (feed 4 (start junk []) [CR, CR]).1 = [true, true] :=
  C10_two_terminators 4 junk [] (by decide)

/-- C11, as stated, fails: with size 8 and a buffer of zero bytes the calls
`a b BS` leave the cursor at 1 and the erased `b` (0x62) at `buf[1]`, so
`buf[index]` is not the 0 terminator after the third call. -/
theorem C11_counterexample :
    (feed 8 (start zeros []) [0x61, 0x62, 0x08]).2.index = 1 ∧
    (feed 8 (start zeros []) [0x61, 0x62, 0x08]).2.buf 1 = 0x62 ∧
    ¬ ((feed 8 (start zeros []) [0x61, 0x62, 0x08]).2.buf
        (feed 8 (start zeros []) [0x61, 0x62, 0x08]).2.index = 0) := by
  decide

/-- C11, amended: starting from cursor 0 with a fixed buffer and a size of at
least 1, after every call (whatever the character) the cursor is the length of
`pending size w`, the characters typed and not erased since the last reset,
`buf[0..index)` holds exactly these characters, and there are at most
`size - 1` of them.  The 0 terminator is the work of the CR/LF call: a
terminator fed next stores 0 right behind these characters, so that the buffer
then holds the line followed by 0. -/
theorem C11_line_in_progress (size : Int) (w : List Nat) (buf : Int → Nat)
    (out : List Nat) (hsize : 1 ≤ size) :
    (feed size (start buf out) w).2.index = ((pending size w).length : Int) ∧
    readBuf (feed size (start buf out) w).2.buf (pending size w).length
      = pending size w ∧
    ((pending size w).length : Int) ≤ size - 1 ∧
    (∀ t : Nat, (t = CR ∨ t = LF) →
      readBuf (feed size (start buf out) (w ++ [t])).2.buf ((pending size w).length + 1)
        = pending size w ++ [0]) := by
  have hH : Holds (feed size (start buf out) w).2 (pending size w) :=
    holds_feed_any size w (start buf out) [] (holds_start buf out)
  refine ⟨hH.1, hH.2, pending_length_le size w [] hsize (by simpa using hsize), ?_⟩
  intro t ht
  rw [feed_append, feed_cons, feed_nil]
  exact holds_terminate size _ _ t hH ht

/-- C11 amended, worked example: size 4 and the calls `a b CR c d e f BS`: the
line in progress is `"cd"` (`e` was erased, `f` was refused), the cursor is 2,
and an LF fed next leaves `"cd"` and the terminator in the buffer. -/
theorem C11_witness :
    (feed 4 (start junk []) [0x61, 0x62, 0x0D, 0x63, 0x64, 0x65, 0x66, 0x08]).2.index
      = 2 ∧
    readBuf (feed 4 (start junk [])
        [0x61, 0x62, 0x0D, 0x63, 0x64, 0x65, 0x66, 0x08]).2.buf 2 = [0x63, 0x64] ∧
    ((2 : Nat) : Int) ≤ 4 - 1 ∧
    readBuf (feed 4 (start junk [])
        [0x61, 0x62, 0x0D, 0x63, 0x64, 0x65, 0x66, 0x08, 0x0A]).2.buf 3
      = [0x63, 0x64, 0] :=
  have h := C11_line_in_progress 4 [0x61, 0x62, 0x0D, 0x63, 0x64, 0x65, 0x66, 0x08]
    junk [] (by decide)
  ⟨h.1, h.2.1, h.2.2.1, h.2.2.2 0x0A (by decide)⟩

/-- C12, as stated, fails: with size 4 the calls `a b c` leave the cursor at
3, which is `size - 1` and not at most `size - 2`. -/
theorem C12_counterexample :
    (feed 4 (start junk []) [0x61, 0x62, 0x63]).2.index = 3 ∧
    ¬ ((feed 4 (start junk []) [0x61, 0x62, 0x63]).2.index ≤ 4 - 2) := by
  decide

/-- C12, amended: for every size of at least 1, starting from cursor 0 and
using the same size in every call, the cursor after any finite sequence of
calls lies in `0 .. size - 1`; the upper end is reached, by `size - 1` accepted
characters (the buffer is then full). -/
theorem C12_cursor_at_most_size_minus_one (size : Int) (w : List Nat)
    (buf : Int → Nat) (out : List Nat) (hsize : 1 ≤ size) :
    0 ≤ (feed size (start buf out) w).2.index ∧
    (feed size (start buf out) w).2.index ≤ size - 1 ∧
    (feed size (start buf out) (List.replicate (size - 1).toNat 0x61)).2.index
      = size - 1 := by
  have h := index_feed size w (start buf out) hsize
    ⟨le_refl _, by simpa [start] using hsize⟩
  have hlen : ((List.replicate (size - 1).toNat 0x61).length : Int) = size - 1 := by
    rw [List.length_replicate]
    exact Int.toNat_of_nonneg (by omega)
  have hp := feed_plain size (List.replicate (size - 1).toNat 0x61) (start buf out)
    (fun x hx => by rw [(List.mem_replicate.mp hx).2]; decide)
    (by rw [hlen]; simp [start])
  refine ⟨h.1, by omega, ?_⟩
  rw [hp.1, hlen]
  simp [start]

/-- C12 amended, worked example: size 4; after `a b c d BS e` the cursor is 3,
inside `0 .. 3`, and three accepted characters put it at 3. -/
theorem C12_witness :
    0 ≤ (feed 4 (start junk []) [0x61, 0x62, 0x63, 0x64, 0x08, 0x65]).2.index ∧
    (feed 4 (start junk []) [0x61, 0x62, 0x63, 0x64, 0x08, 0x65]).2.index ≤ 4 - 1 ∧
    (feed 4 (start junk []) [0x61, 0x61, 0x61]).2.index = 4 - 1 :=
  C12_cursor_at_most_size_minus_one 4 [0x61, 0x62, 0x63, 0x64, 0x08, 0x65] junk []
    (by decide)

/-- C13: the cursor is one static variable shared by all callers, so calls that
pass different sizes break the bounds: there is a sequence of calls, each with
a size of at least 1 and not all with the same size, in which a call stores
into the buffer at an offset that is not below the size passed to that call.
Five ordinary characters with size 8 followed by CR with size 4 is such a
sequence: the CR finds the cursor at 5, stores its 0 at `buf[5]`, and with
checked indexing takes the out-of-range branch. -/
theorem C13_shared_cursor_overflow (buf : Int → Nat) (out : List Nat) :
    (∀ p ∈ typed5 ++ [(CR, 4)], (1 : Int) ≤ p.2) ∧
    (feed_sizes (start buf out) typed5).2.index = 5 ∧
    store_offset CR 4 (feed_sizes (start buf out) typed5).2 = some 5 ∧
    (4 : Int) ≤ 5 ∧
    (feed_sizes (start buf out) (typed5 ++ [(CR, 4)])).2.buf 5 = 0 ∧
    line_edit_checked CR 4 (feed_sizes (start buf out) typed5).2 = none ∧
    (∃ (before : List (Nat × Int)) (c : Nat) (size o : Int),
      (∀ p ∈ before ++ [(c, size)], (1 : Int) ≤ p.2) ∧
      (∃ p ∈ before, p.2 ≠ size) ∧
      store_offset c size (feed_sizes (start buf out) before).2 = some o ∧
      size ≤ o) := by
  have hall : ∀ p ∈ typed5 ++ [(CR, 4)], (1 : Int) ≤ p.2 := by decide
  have hidx : (feed_sizes (start buf out) typed5).2.index = 5 := rfl
  have hoff : store_offset CR 4 (feed_sizes (start buf out) typed5).2 = some 5 := rfl
  have hbuf : (feed_sizes (start buf out) (typed5 ++ [(CR, 4)])).2.buf 5 = 0 := rfl
  have hchk : line_edit_checked CR 4 (feed_sizes (start buf out) typed5).2 = none := by
    rw [line_edit_checked_none_iff]
    exact ⟨5, hoff, by decide⟩
  exact ⟨hall, hidx, hoff, by decide, hbuf, hchk,
    typed5, CR, 4, 5, hall, ⟨(0x61, 8), by decide, by decide⟩, hoff, by decide⟩

/-- C14: for every size of at least 1, starting from cursor 0 and using the
same size in every call, every store performed by any call of any finite input
sequence is at an offset in `0 .. size - 1`; hence the embedding with checked
indexing never takes its out-of-range branch and returns what the unchecked
one returns. -/
theorem C14_no_overflow (size : Int) (w : List Nat) (buf : Int → Nat) (out : List Nat)
    (hsize : 1 ≤ size) :
    (∀ (u : List Nat) (c : Nat) (rest : List Nat) (o : Int), w = u ++ c :: rest →
      store_offset c size (feed size (start buf out) u).2 = some o → 0 ≤ o ∧ o < size) ∧
    feed_checked size (start buf out) w = some (feed size (start buf out) w) := by
  have h0 : 0 ≤ (start buf out).index ∧ (start buf out).index < size :=
    ⟨le_refl _, by simpa [start] using hsize⟩
  refine ⟨?_, feed_checked_of_range size w (start buf out) hsize h0⟩
  intro u c rest o _ ho
  rw [store_offset_eq_index c size _ o ho]
  exact index_feed size u (start buf out) hsize h0

/-- C14, worked example: size 4 and the calls `a b c d BS e CR f`: the CR,
sixth after `a b c d BS e`, stores at offset 3, inside `0 .. 3`, and the checked
run returns the result of the unchecked one. -/
theorem C14_witness :
    (0 : Int) ≤ 3 ∧ (3 : Int) < 4 ∧
    feed_checked 4 (start junk []) [0x61, 0x62, 0x63, 0x64, 0x08, 0x65, 0x0D, 0x66]
      = some (feed 4 (start junk []) [0x61, 0x62, 0x63, 0x64, 0x08, 0x65, 0x0D, 0x66]) :=
  have h := C14_no_overflow 4 [0x61, 0x62, 0x63, 0x64, 0x08, 0x65, 0x0D, 0x66] junk []
    (by decide)
  have h3 := h.1 [0x61, 0x62, 0x63, 0x64, 0x08, 0x65] 0x0D [0x66] 3 rfl (by decide)
  ⟨h3.1, h3.2, h.2⟩

/-- C15: typing a character and erasing it cancels out.  For every size, every
cursor `i` with `0 ≤ i < size - 1` and every character `c` that is none of CR,
LF, BS, DEL, the call with `c` followed by the call with BS or DEL puts the
cursor back at `i` and changes the buffer at offset `i` only (so `buf[0..i)` is
as before); the output has grown by `c` and the erase sequence.  Any input fed
afterwards gives the same returned values and the same cursor as if the two
calls had not been made, and every line completed by a terminator is the
same. -/
theorem C15_type_then_erase (c e : Nat) (size i : Int) (buf : Int → Nat) (out : List Nat)
    (hc : c ≠ CR ∧ c ≠ LF ∧ c ≠ BS ∧ c ≠ DEL) (he : e = BS ∨ e = DEL)
    (hi : 0 ≤ i ∧ i < size - 1) :
    (line_edit e size (line_edit c size ⟨i, buf, out⟩).2).2
      = ⟨i, Function.update buf i c, out ++ [c, BS, SPACE, BS]⟩ ∧
    (∀ j, j ≠ i →
      (line_edit e size (line_edit c size ⟨i, buf, out⟩).2).2.buf j = buf j) ∧
    readBuf (line_edit e size (line_edit c size ⟨i, buf, out⟩).2).2.buf i.toNat
      = readBuf buf i.toNat ∧
    (∀ w : List Nat,
      (feed size (line_edit e size (line_edit c size ⟨i, buf, out⟩).2).2 w).1
        = (feed size ⟨i, buf, out⟩ w).1 ∧
      (feed size (line_edit e size (line_edit c size ⟨i, buf, out⟩).2).2 w).2.index
        = (feed size ⟨i, buf, out⟩ w).2.index) ∧
    (∀ (w : List Nat) (t : Nat), (t = CR ∨ t = LF) →
      completed_line size (line_edit e size (line_edit c size ⟨i, buf, out⟩).2).2 w t
        = completed_line size ⟨i, buf, out⟩ w t) := by
  have hstate : (line_edit e size (line_edit c size ⟨i, buf, out⟩).2).2
      = ⟨i, Function.update buf i c, out ++ [c, BS, SPACE, BS]⟩ := by
    rw [line_edit_plain_room c size ⟨i, buf, out⟩ hc hi.2,
      line_edit_erase e size _ he (by simp only; omega)]
    simp
  have hag : Agree i ⟨i, Function.update buf i c, out ++ [c, BS, SPACE, BS]⟩
      ⟨i, buf, out⟩ :=
    ⟨rfl, fun j hj => by simp [Function.update, hj], Or.inr (le_refl _)⟩
  rw [hstate]
  refine ⟨rfl, fun j hj => by simp [Function.update, hj], ?_, fun w => ?_,
    fun w t ht => ?_⟩
  · exact readBuf_update_of_le buf i c i.toNat (le_of_eq (Int.toNat_of_nonneg hi.1))
  · have h := agree_feed i hi.1 size w _ _ hag
    exact ⟨h.1, h.2.1⟩
  · exact agree_completed_line i hi.1 size w t _ _ hag hi.1 ht

/-- C15, worked example: size 8, cursor 2 over a buffer holding `ab`, typing `x`
and then BS restores the cursor; the input `y z BS` then CR fed afterwards
returns the same values and completes the same line `"aby"` as without the two
calls. -/
theorem C15_witness :
    (line_edit 0x08 8 (line_edit 0x78 8 ⟨2, bufAB, []⟩).2).2.index = 2 ∧
    (feed 8 (line_edit 0x08 8 (line_edit 0x78 8 ⟨2, bufAB, []⟩).2).2
        [0x79, 0x7A, 0x08, 0x0D]).1
      = (feed 8 ⟨2, bufAB, []⟩ [0x79, 0x7A, 0x08, 0x0D]).1 ∧
    completed_line 8 (line_edit 0x08 8 (line_edit 0x78 8 ⟨2, bufAB, []⟩).2).2
        [0x79, 0x7A, 0x08] 0x0D
      = completed_line 8 ⟨2, bufAB, []⟩ [0x79, 0x7A, 0x08] 0x0D ∧
    completed_line 8 ⟨2, bufAB, []⟩ [0x79, 0x7A, 0x08] 0x0D
      = [0x61, 0x62, 0x79, 0] :=
  have h := C15_type_then_erase 0x78 0x08 8 2 bufAB [] (by decide) (by decide)
    (by decide)
  ⟨congrArg EditState.index h.1, (h.2.2.2.1 [0x79, 0x7A, 0x08, 0x0D]).1,
    h.2.2.2.2 [0x79, 0x7A, 0x08] 0x0D (by decide), by decide⟩

/-- C16: a call changes the buffer at no offset other than the cursor on entry;
in particular offsets below that cursor are never changed, and every store the
call performs is at that cursor.  A call with BS or DEL, and a call refused with
a bell because the buffer is full, change no buffer position at all; so a typed
and then erased character stays at its offset, now at the cursor, until it is
overwritten. -/
theorem C16_frame (c : Nat) (size : Int) (s : EditState) :
    (∀ j, j ≠ s.index → (line_edit c size s).2.buf j = s.buf j) ∧
    (∀ j, j < s.index → (line_edit c size s).2.buf j = s.buf j) ∧
    (∀ o, store_offset c size s = some o → o = s.index) ∧
    (store_offset c size s = none → (line_edit c size s).2.buf = s.buf) ∧
    ((c = BS ∨ c = DEL) → (line_edit c size s).2.buf = s.buf) ∧
    ((c ≠ CR ∧ c ≠ LF) → ¬ s.index < size - 1 → (line_edit c size s).2.buf = s.buf) ∧
    (∀ d e : Nat, (d ≠ CR ∧ d ≠ LF ∧ d ≠ BS ∧ d ≠ DEL) → (e = BS ∨ e = DEL) →
      0 ≤ s.index → s.index < size - 1 →
      (line_edit e size (line_edit d size s).2).2.buf s.index = d ∧
      (line_edit e size (line_edit d size s).2).2.index = s.index) := by
  have hnone : ∀ k : Nat, (k = BS ∨ k = DEL) → store_offset k size s = none := by
    intro k hk
    have hn : ¬ (k = CR ∨ k = LF) := by
      rcases hk with h | h <;> rw [h] <;> decide
    simp [store_offset, hn, hk]
  refine ⟨fun j hj => buf_off_cursor c size s j hj,
    fun j hj => buf_off_cursor c size s j (ne_of_lt hj),
    fun o ho => store_offset_eq_index c size s o ho,
    buf_of_store_offset_none c size s,
    fun hbs => buf_of_store_offset_none c size s (hnone c hbs),
    fun hnt hfull => buf_of_store_offset_none c size s ?_,
    fun d e hd he h0 hroom => ?_⟩
  · have hn : ¬ (c = CR ∨ c = LF) := by tauto
    simp [store_offset, hn, hfull]
  · rw [line_edit_plain_room d size s hd hroom,
      line_edit_erase e size _ he (by simp only; omega)]
    simp

/-- C16, worked example: size 4, cursor 1 over `0xFF` bytes: typing `b` changes
offset 1 only, the BS that follows changes nothing, and the erased `b` is still
at offset 1 with the cursor back at 1. -/
theorem C16_witness :
    (∀ j, j ≠ 1 → (line_edit 0x62 4 ⟨1, junk, []⟩).2.buf j = junk j) ∧
    (line_edit 0x08 4 (line_edit 0x62 4 ⟨1, junk, []⟩).2).2.buf
      = (line_edit 0x62 4 ⟨1, junk, []⟩).2.buf ∧
    (line_edit 0x08 4 (line_edit 0x62 4 ⟨1, junk, []⟩).2).2.buf 1 = 0x62 ∧
    (line_edit 0x08 4 (line_edit 0x62 4 ⟨1, junk, []⟩).2).2.index = 1 :=
  have h := (C16_frame 0x62 4 ⟨1, junk, []⟩).2.2.2.2.2.2 0x62 0x08 (by decide) (by decide)
    (by decide) (by decide)
  ⟨(C16_frame 0x62 4 ⟨1, junk, []⟩).1,
    (C16_frame 0x08 4 (line_edit 0x62 4 ⟨1, junk, []⟩).2).2.2.2.2.1 (by decide),
    h.1, h.2⟩

end EditLine
